import Mathlib

/-!
Verification of the magic-json formatting-preservation layer.

The development shallowly embeds `src/source/magic-json.ts` (the current
revision of the library; `src/lib/magic-json.ts` contains the same
detection algorithm).  Strings are modelled as `List Char`.  The platform
collaborators `JSON.parse` / `JSON.stringify` (external to the repository)
are modelled from the ECMA-262 algorithms, restricted to integer numerals
and to total reviver/replacer functions; the repository's own code —
indentation/line-ending detection, the association table, `parse`,
`stringify`, `fromFile`, `write` — is translated line by line.
-/

/-- Model of a JSON value as produced by the strict decoder collaborator
(`JSON.parse`).  Numbers are restricted to integers; object members keep
textual order with last-value-wins on duplicate keys, as in ECMAScript. -/
inductive Json where
  | null : Json
  | bool (b : Bool) : Json
  | num (n : Int) : Json
  | str (s : List Char) : Json
  | arr (elems : List Json) : Json
  | obj (members : List (List Char × Json)) : Json

/-- `src/source/magic-json.ts` lines 5-10: the `Metadata` interface. -/
structure Metadata where
  indentString : Option (List Char)
  useCRLF : Bool
  hasFinalEol : Bool
  filepath : Option (List Char) := none
deriving DecidableEq

/-- State of the module-wide association table (`MagicJSON.#refsMap`,
line 14): a `WeakMap` keyed by object identity.  Identities are modelled
as natural numbers allocated by `parse`. -/
structure MJState where
  refs : List (Nat × Metadata)
  nextId : Nat
deriving DecidableEq

/-- The fresh module state: an empty `WeakMap`. -/
def mjInit : MJState := { refs := [], nextId := 0 }

/-- `WeakMap.get` on the association table. -/
def lookupRefs : List (Nat × Metadata) → Nat → Option Metadata
  | [], _ => none
  | (k, m) :: rest, id => if k = id then some m else lookupRefs rest id

/-- `refsMap.get(value)` for a value carried together with its identity
(`none` = a value that never went through `parse`). -/
def lookupMeta (st : MJState) : Option Nat → Option Metadata
  | none => none
  | some id => lookupRefs st.refs id

/-- `meta.filepath = filepath` (`fromFile`, line 40): update one entry. -/
def setFilepath : List (Nat × Metadata) → Nat → List Char → List (Nat × Metadata)
  | [], _, _ => []
  | (k, m) :: rest, id, p =>
    if k = id then (k, { m with filepath := some p }) :: rest
    else (k, m) :: setFilepath rest id p

/-! ## The formatting detector (`MagicJSON.parse`, lines 70-137) -/

/-- Internal state of the detection loop (lines 70-79): the frequency
table `indents` (a JS object, i.e. an insertion-ordered map), the two
line-ending counters, the final-EOL flag and the `previousIndent`/`key`
loop variables. -/
structure ScanState where
  indents : List (List Char × Nat)
  lfCount : Nat
  crCount : Nat
  hasFinalEol : Bool
  previousIndent : List Char
  key : List Char
deriving DecidableEq

/-- The loop's starting state (lines 71-79). -/
def initScan : ScanState :=
  { indents := [], lfCount := 0, crCount := 0, hasFinalEol := false,
    previousIndent := [], key := [] }

/-- `indents[key] = (indents[key] ?? 0) + 1` (lines 113 and 119) on the
insertion-ordered frequency table.  Line 109 (`indents[key]++`) is also
modelled by this function: on that branch the key is always present
(it was inserted when `key` was last assigned), so the two coincide. -/
def bump : List (List Char × Nat) → List Char → List (List Char × Nat)
  | [], k => [(k, 1)]
  | (k, n) :: rest, key => if k = key then (k, n + 1) :: rest else (k, n) :: bump rest key

/-- The regex `/^( +|\t+)/` (line 105): the leading run of spaces, or of
tabs, depending on the first character; empty when the line starts with
neither. -/
def leadingRun (line : List Char) : List Char :=
  match line with
  | ' ' :: _ => line.takeWhile (fun c => c = ' ')
  | '\t' :: _ => line.takeWhile (fun c => c = '\t')
  | _ => []

/-- Lines 103-126: indentation bookkeeping for one line of the text. -/
def processLine (st : ScanState) (line : List Char) : ScanState :=
  if line.isEmpty then st
  else
    let lineIndent := leadingRun line
    if lineIndent.isEmpty then { st with previousIndent := [] }
    else if lineIndent = st.previousIndent then
      -- Same indentation, increment use count (line 109).
      { st with indents := bump st.indents st.key, previousIndent := lineIndent }
    else if lineIndent.head? = st.previousIndent.head? then
      -- Same indentation type, different length (lines 111-113).
      let key := line.take (Int.natAbs ((lineIndent.length : Int) - (st.previousIndent.length : Int)))
      { st with key := key, indents := bump st.indents key, previousIndent := lineIndent }
    else
      -- Different indentation (lines 115-119).
      { st with key := lineIndent, indents := bump st.indents lineIndent,
                previousIndent := lineIndent }

/-- The text as the `\n`-separated chunks the loop of lines 80-127 walks
through (`text.indexOf('\n', pos)` splitting). -/
def splitOnLF : List Char → List (List Char)
  | [] => [[]]
  | c :: rest =>
    if c = '\n' then [] :: splitOnLF rest
    else
      match splitOnLF rest with
      | [] => [[c]]
      | chunk :: chunks => (c :: chunk) :: chunks

/-- Lines 80-127: one iteration per chunk.  A non-final chunk corresponds
to a found `\n`; `text.charCodeAt(nextEol - 1) === 13` (line 87) is the
chunk ending in `\r`, in which case the `\r` is stripped from the line
(line 89); `nextEol === end` (line 95) is the remaining text being empty,
i.e. the rest of the chunk list being `[[]]`. -/
def scanChunks : ScanState → List (List Char) → ScanState
  | st, [] => st
  | st, [line] => processLine st line
  | st, chunk :: rest =>
    let st1 :=
      if chunk.getLast? = some '\r' then { st with crCount := st.crCount + 1 }
      else { st with lfCount := st.lfCount + 1 }
    let line := if chunk.getLast? = some '\r' then chunk.dropLast else chunk
    let st2 := if rest = [[]] then { st1 with hasFinalEol := true } else st1
    scanChunks (processLine st2 line) rest

/-- The whole detection loop of `parse` applied to a text. -/
def scanText (text : List Char) : ScanState :=
  scanChunks initScan (splitOnLF text)

/-- Lines 129-137: `for (const key in indents)` keeps the first-seen
strict maximum (JS string keys iterate in insertion order). -/
def pickMax : List (List Char × Nat) → Option (List Char) → Nat → Option (List Char)
  | [], best, _ => best
  | e :: rest, best, mx =>
    if e.2 > mx then pickMax rest (some e.1) e.2 else pickMax rest best mx

/-- The formatting descriptor computed by `parse` (lines 70-139):
detected indentation unit, `useCRLF: crCount > lfCount`, `hasFinalEol`. -/
def detect (text : List Char) : Metadata :=
  let st := scanText text
  { indentString := pickMax st.indents none 0,
    useCRLF := decide (st.crCount > st.lfCount),
    hasFinalEol := st.hasFinalEol,
    filepath := none }

/-! ## The generic encoder collaborator (`JSON.stringify`) -/

/-- A (total) replacer function `(key, value) => newValue`, the shape the
source forwards to `JSON.stringify` (lines 150, 156). -/
def Replacer := List Char → Json → Json

/-- The `space` argument of `JSON.stringify`: `string | number`. -/
inductive SpaceArg where
  | num (n : Int) : SpaceArg
  | str (s : List Char) : SpaceArg

/-- ECMA-262 gap computation: a numeric space is clamped to at most 10
spaces (nonpositive gives none), a string space is truncated to its first
10 characters. -/
def gapOf : Option SpaceArg → List Char
  | none => []
  | some (.num n) => List.replicate (min n 10).toNat ' '
  | some (.str s) => s.take 10

/-- Decimal digits of a natural number (for array-index keys and numeric
literals), structurally fueled so that it evaluates in the kernel. -/
def natDigitsAux : Nat → Nat → List Char → List Char
  | 0, _, acc => acc
  | fuel + 1, n, acc =>
    let d := Char.ofNat (48 + n % 10)
    if n < 10 then d :: acc else natDigitsAux fuel (n / 10) (d :: acc)

/-- Decimal notation of a natural number. -/
def natToChars (n : Nat) : List Char := natDigitsAux (n + 1) n []

/-- Decimal notation of an integer. -/
def intToChars (n : Int) : List Char :=
  if n < 0 then '-' :: natToChars n.natAbs else natToChars n.natAbs

/-- One character of ECMA-262 `QuoteJSONString`. -/
def escapeChar (c : Char) : List Char :=
  if c = '"' then ['\\', '"']
  else if c = '\\' then ['\\', '\\']
  else if c = '\x08' then ['\\', 'b']
  else if c = '\x0c' then ['\\', 'f']
  else if c = '\n' then ['\\', 'n']
  else if c = '\r' then ['\\', 'r']
  else if c = '\t' then ['\\', 't']
  else if c.toNat < 32 then
    let hexDigit := fun (k : Nat) => if k < 10 then Char.ofNat (48 + k) else Char.ofNat (87 + k)
    ['\\', 'u', '0', '0', hexDigit (c.toNat / 16), hexDigit (c.toNat % 16)]
  else [c]

/-- ECMA-262 `QuoteJSONString`. -/
def quoteStr (s : List Char) : List Char :=
  '"' :: (s.map escapeChar).flatten ++ ['"']

/-- Interleave a separator between serialized items. -/
def joinSep (sep : List Char) : List (List Char) → List Char
  | [] => []
  | [x] => x
  | x :: rest => x ++ sep ++ joinSep sep rest

/-- Map with the element index, for array-index replacer keys. -/
def mapIdxAux (f : Nat → α → β) (i : Nat) : List α → List β
  | [] => []
  | x :: xs => f i x :: mapIdxAux f (i + 1) xs

/-- `value = replacer.call(holder, key, value)` when a replacer is given. -/
def applyRep (rep : Option Replacer) (k : List Char) (v : Json) : Json :=
  match rep with
  | none => v
  | some f => f k v

/-- ECMA-262 `SerializeJSONProperty`/`SerializeJSONObject`/
`SerializeJSONArray`, fueled by nesting depth (the fuel is ample for any
value whose replacer does not increase nesting). -/
def serVal : Nat → Option Replacer → List Char → List Char → Json → List Char
  | 0, _, _, _, _ => []
  | fuel + 1, rep, gap, indent, j =>
    match j with
    | .null => "null".data
    | .bool true => "true".data
    | .bool false => "false".data
    | .num n => intToChars n
    | .str s => quoteStr s
    | .arr xs =>
      if xs.isEmpty then ['[', ']']
      else
        let indentN := indent ++ gap
        let items := mapIdxAux (fun i v => serVal fuel rep gap indentN (applyRep rep (natToChars i) v)) 0 xs
        if gap.isEmpty then '[' :: joinSep [','] items ++ [']']
        else '[' :: '\n' :: indentN ++ joinSep (',' :: '\n' :: indentN) items ++ '\n' :: indent ++ [']']
    | .obj kvs =>
      if kvs.isEmpty then ['\x7b', '\x7d']
      else
        let indentN := indent ++ gap
        let items := kvs.map fun kv =>
          quoteStr kv.1 ++ (if gap.isEmpty then [':'] else [':', ' ']) ++
            serVal fuel rep gap indentN (applyRep rep kv.1 kv.2)
        if gap.isEmpty then '\x7b' :: joinSep [','] items ++ ['\x7d']
        else '\x7b' :: '\n' :: indentN ++ joinSep (',' :: '\n' :: indentN) items ++ '\n' :: indent ++ ['\x7d']

/-- Depth fuel for `serVal`: a fixed bound modelling the engine's finite
recursion stack (`JSON.stringify` overflows on deeper nesting). -/
def serFuel : Nat := 512

/-- The generic encoder collaborator `JSON.stringify(value, replacer,
space)` as called on lines 156 and 150 of the source; the root replacer
key is the empty string. -/
def jsonStringify (v : Json) (rep : Option Replacer) (space : Option SpaceArg) : List Char :=
  serVal serFuel rep (gapOf space) [] (applyRep rep [] v)

/-! ## The strict decoder collaborator (`JSON.parse`) -/

/-- A decoder failure (`SyntaxError`), carrying its message. -/
structure SyntaxErr where
  msg : List Char
deriving DecidableEq

/-- JSON insignificant whitespace. -/
def skipWs (l : List Char) : List Char :=
  l.dropWhile fun c => c = ' ' || c = '\t' || c = '\n' || c = '\r'

/-- String-body scanning of the decoder (after the opening quote),
returning the decoded characters and the rest of the input. -/
def scanStringRest : List Char → Except SyntaxErr (List Char × List Char)
  | [] => .error ⟨('U' :: "nterminated string in JSON".data)⟩
  | '"' :: rest => .ok ([], rest)
  | '\\' :: 'u' :: h1 :: h2 :: h3 :: h4 :: rest =>
    let hv := fun (c : Char) =>
      if '0' ≤ c ∧ c ≤ '9' then c.toNat - 48
      else if 'a' ≤ c ∧ c ≤ 'f' then c.toNat - 87
      else if 'A' ≤ c ∧ c ≤ 'F' then c.toNat - 55
      else 0
    let code := ((hv h1 * 16 + hv h2) * 16 + hv h3) * 16 + hv h4
    match scanStringRest rest with
    | .ok (s, rem) => .ok (Char.ofNat code :: s, rem)
    | .error e => .error e
  | '\\' :: e :: rest =>
    let c :=
      if e = 'n' then '\n' else if e = 't' then '\t' else if e = 'r' then '\r'
      else if e = 'b' then '\x08' else if e = 'f' then '\x0c' else e
    match scanStringRest rest with
    | .ok (s, rem) => .ok (c :: s, rem)
    | .error e2 => .error e2
  | c :: rest =>
    match scanStringRest rest with
    | .ok (s, rem) => .ok (c :: s, rem)
    | .error e => .error e

/-- Digit run of the decoder's numeric grammar. -/
def scanDigits : List Char → Nat → (Nat × List Char)
  | c :: rest, acc =>
    if '0' ≤ c ∧ c ≤ '9' then scanDigits rest (acc * 10 + (c.toNat - 48))
    else (acc, c :: rest)
  | [], acc => (acc, [])

/-- Whether the next input character is a decimal digit. -/
def startsDigit : List Char → Bool
  | c :: _ => '0' ≤ c && c ≤ '9'
  | [] => false

/-- Object member insertion: last value wins, first position kept, as for
ECMAScript object properties. -/
def objInsert (kvs : List (List Char × Json)) (k : List Char) (v : Json) :
    List (List Char × Json) :=
  match kvs with
  | [] => [(k, v)]
  | (k0, v0) :: rest => if k0 = k then (k0, v) :: rest else (k0, v0) :: objInsert rest k v

/-- Parsing mode of the fueled recursive descent: a single value, the
remaining elements of an array, or the remaining members of an object. -/
inductive PMode where
  | value : PMode
  | elems (acc : List Json) : PMode
  | membs (acc : List (List Char × Json)) : PMode

/-- Fueled recursive descent over the strict JSON grammar (integer
numerals).  The fuel only bounds recursion depth; `rawParse` supplies
enough for any input it is given. -/
def parseP : Nat → PMode → List Char → Except SyntaxErr (Json × List Char)
  | 0, _, _ => .error ⟨('T' :: "oo much recursion".data)⟩
  | fuel + 1, .value, input =>
    match skipWs input with
    | [] => .error ⟨('U' :: "nexpected end of JSON input".data)⟩
    | '\x7b' :: rest =>
      match skipWs rest with
      | '\x7d' :: rest2 => .ok (.obj [], rest2)
      | rest2 => parseP fuel (.membs []) rest2
    | '[' :: rest =>
      match skipWs rest with
      | ']' :: rest2 => .ok (.arr [], rest2)
      | rest2 => parseP fuel (.elems []) rest2
    | '"' :: rest =>
      match scanStringRest rest with
      | .ok (s, rem) => .ok (.str s, rem)
      | .error e => .error e
    | 't' :: 'r' :: 'u' :: 'e' :: rest => .ok (.bool true, rest)
    | 'f' :: 'a' :: 'l' :: 's' :: 'e' :: rest => .ok (.bool false, rest)
    | 'n' :: 'u' :: 'l' :: 'l' :: rest => .ok (.null, rest)
    | '-' :: rest =>
      if startsDigit rest then
        let p := scanDigits rest 0
        .ok (.num (-(p.1 : Int)), p.2)
      else .error ⟨('U' :: "nexpected token".data)⟩
    | c :: rest =>
      if '0' ≤ c ∧ c ≤ '9' then
        let p := scanDigits (c :: rest) 0
        .ok (.num (p.1 : Int), p.2)
      else .error ⟨('U' :: "nexpected token".data)⟩
  | fuel + 1, .elems acc, input =>
    match parseP fuel .value input with
    | .error e => .error e
    | .ok (v, rest) =>
      match skipWs rest with
      | ',' :: rest2 => parseP fuel (.elems (v :: acc)) rest2
      | ']' :: rest2 => .ok (.arr (v :: acc).reverse, rest2)
      | _ => .error ⟨('E' :: "xpected comma or bracket after array element".data)⟩
  | fuel + 1, .membs acc, input =>
    match skipWs input with
    | '"' :: rest =>
      match scanStringRest rest with
      | .error e => .error e
      | .ok (k, rest2) =>
        match skipWs rest2 with
        | ':' :: rest3 =>
          match parseP fuel .value rest3 with
          | .error e => .error e
          | .ok (v, rest4) =>
            match skipWs rest4 with
            | ',' :: rest5 => parseP fuel (.membs (objInsert acc k v)) rest5
            | '\x7d' :: rest5 => .ok (.obj (objInsert acc k v), rest5)
            | _ => .error ⟨('E' :: "xpected comma or brace after property value".data)⟩
        | _ => .error ⟨('E' :: "xpected colon after property name".data)⟩
    | _ => .error ⟨('E' :: "xpected property name".data)⟩

/-- The decoder collaborator without a reviver: parse one value, then
require only whitespace to remain. -/
def rawParse (text : List Char) : Except SyntaxErr Json :=
  match parseP (2 * text.length + 8) .value text with
  | .error e => .error e
  | .ok (v, rest) =>
    match skipWs rest with
    | [] => .ok v
    | _ => .error ⟨('U' :: "nexpected non-whitespace character after JSON".data)⟩

/-- A (total) reviver function `(key, value) => newValue` as forwarded to
the decoder by `parse` (line 65). -/
def Reviver := List Char → Json → Json

/-- ECMA-262 `InternalizeJSONProperty`: bottom-up reviver walk (children
first, then the reviver at the node); fueled like `serVal`. -/
def reviveWalk (f : Reviver) : Nat → List Char → Json → Json
  | 0, k, j => f k j
  | fuel + 1, k, j =>
    match j with
    | .arr xs => f k (.arr (mapIdxAux (fun i v => reviveWalk f fuel (natToChars i) v) 0 xs))
    | .obj kvs => f k (.obj (kvs.map fun kv => (kv.1, reviveWalk f fuel kv.1 kv.2)))
    | other => f k other

/-- The decoder collaborator `JSON.parse(text, reviver)` (line 65): parse,
then run the reviver walk from the root (key `""`). -/
def jsonParse (text : List Char) (reviver : Option Reviver) : Except SyntaxErr Json :=
  match rawParse text with
  | .error e => .error e
  | .ok v =>
    match reviver with
    | none => .ok v
    | some f => .ok (reviveWalk f serFuel [] v)

/-! ## The MagicJSON operations (`src/source/magic-json.ts`) -/

/-- `typeof json === 'object' && json !== null` (line 66) on decoder
output: exactly the arrays and objects. -/
def Json.isObjectLike : Json → Bool
  | .arr _ => true
  | .obj _ => true
  | _ => false

/-- Result of `MagicJSON.parse`: the decoded value together with the
identity under which it was tracked (`none` when the value was returned
untracked). -/
structure ParseResult where
  value : Json
  ref : Option Nat

/-- `MagicJSON.parse` (lines 62-141): delegate to the decoder (failure
propagates, line 65), return primitives untracked (line 66-67), otherwise
run the formatting detector and record the descriptor in the association
table under a fresh identity (line 139). -/
def MagicJSON.parse (st : MJState) (text : List Char) (reviver : Option Reviver) :
    Except SyntaxErr ParseResult × MJState :=
  match jsonParse text reviver with
  | .error e => (.error e, st)
  | .ok json =>
    if json.isObjectLike then
      (.ok { value := json, ref := some st.nextId },
       { refs := st.refs ++ [(st.nextId, detect text)], nextId := st.nextId + 1 })
    else
      (.ok { value := json, ref := none }, st)

/-- `text.replaceAll('\n', '\r\n')` (line 160). -/
def replaceAllLF : List Char → List Char
  | [] => []
  | c :: rest => if c = '\n' then '\r' :: '\n' :: replaceAllLF rest else c :: replaceAllLF rest

/-- `MagicJSON.stringify` (lines 150-162): look the metadata up (defaults
when absent), call the generic encoder with `space ?? indentString`,
append a final newline when `hasFinalEol`, and rewrite every LF to CRLF
when `useCRLF`. -/
def MagicJSON.stringify (st : MJState) (value : Json) (ref : Option Nat)
    (replacer : Option Replacer) (space : Option SpaceArg) : List Char :=
  let meta := (lookupMeta st ref).getD
    { indentString := none, useCRLF := false, hasFinalEol := false, filepath := none }
  let effSpace : Option SpaceArg :=
    match space with
    | some sp => some sp
    | none => meta.indentString.map SpaceArg.str
  let text := jsonStringify value replacer effSpace
  let text := if meta.hasFinalEol then text ++ ['\n'] else text
  if meta.useCRLF then replaceAllLF text else text

/-- `MagicJSON.fromFile` (lines 35-42): read the file (the read text is a
parameter here, standing for the file-system collaborator), `parse` it,
and when the result was tracked store the `filepath` argument in its
descriptor — the path exactly as given to `fromFile`. -/
def MagicJSON.fromFile (st : MJState) (fileText : List Char) (filepath : List Char) :
    Except SyntaxErr ParseResult × MJState :=
  match MagicJSON.parse st fileText none with
  | (.ok pr, st1) =>
    match pr.ref with
    | some id => (.ok pr, { st1 with refs := setFilepath st1.refs id filepath })
    | none => (.ok pr, st1)
  | (.error e, st1) => (.error e, st1)

/-- The `TypeError` message of `write` (line 55), with
`MagicJSON.name = "MagicJSON"` interpolated. -/
def writeErrMsg : List Char :=
  ('v' :: "alue is not a MagicJSON object and filepath argument was not given".data)

/-- A failure of `write`. -/
inductive WriteError where
  | typeError (msg : List Char) : WriteError
deriving DecidableEq

/-- `MagicJSON.write` (lines 52-57): `filepath ??= refsMap.get(value)?.filepath`,
throw a `TypeError` when no path results, else emit the pair
(path, `stringify(value)`) handed to the file-system collaborator.  The
returned state is the association table after the call. -/
def MagicJSON.write (st : MJState) (value : Json) (ref : Option Nat)
    (filepath : Option (List Char)) :
    Except WriteError (List Char × List Char) × MJState :=
  let fp : Option (List Char) :=
    match filepath with
    | some p => some p
    | none => (lookupMeta st ref).bind Metadata.filepath
  match fp with
  | none => (.error (.typeError writeErrMsg), st)
  | some p => (.ok (p, MagicJSON.stringify st value ref none none), st)

/-- The round trip of the spec's testable property: decode from a fresh
module state, then encode the tracked result with no mutation, default
replacer and no space override. -/
def MagicJSON.roundTrip (t : List Char) : Option (List Char) :=
  match MagicJSON.parse mjInit t none with
  | (.ok pr, st1) => some (MagicJSON.stringify st1 pr.value pr.ref none none)
  | (.error _, _) => none

/-! ## Specification-side notions used by the theorems -/

/-- Line-ending replay (lines 157-161 of `stringify`) as a standalone
transformation: optionally append one LF, then optionally rewrite every
LF to CRLF.  Read the other way round, `applyEol body crlf eol` is also
the text built from an LF-only body by choosing one line-ending style. -/
def applyEol (text : List Char) (crlf eol : Bool) : List Char :=
  let t := if eol then text ++ ['\n'] else text
  if crlf then replaceAllLF t else t

/-- Count of line boundaries classified as CRLF (an LF immediately
preceded by a CR), scanning with the previous character at hand. -/
def crlfAux : Option Char → List Char → Nat
  | _, [] => 0
  | prev, c :: rest =>
    (if c = '\n' ∧ prev = some '\r' then 1 else 0) + crlfAux (some c) rest

/-- Count of line boundaries classified as bare LF (an LF not immediately
preceded by a CR). -/
def bareAux : Option Char → List Char → Nat
  | _, [] => 0
  | prev, c :: rest =>
    (if c = '\n' ∧ prev ≠ some '\r' then 1 else 0) + bareAux (some c) rest

/-- CRLF boundaries of a whole text. -/
def crlfCount (t : List Char) : Nat := crlfAux none t

/-- Bare-LF boundaries of a whole text. -/
def bareLFCount (t : List Char) : Nat := bareAux none t

/-- Boundary classification chunk-wise: non-final chunks ending in CR. -/
def chunkCR : List (List Char) → Nat
  | [] => 0
  | [_] => 0
  | c :: rest => (if c.getLast? = some '\r' then 1 else 0) + chunkCR rest

/-- Boundary classification chunk-wise: non-final chunks not ending CR. -/
def chunkLF : List (List Char) → Nat
  | [] => 0
  | [_] => 0
  | c :: rest => (if c.getLast? = some '\r' then 0 else 1) + chunkLF rest

/-- Whether the `hasFinalEol` flag gets set while scanning a chunk list:
there are at least two chunks and the last one is empty. -/
def chunkHFE : List (List Char) → Bool
  | [] => false
  | [_] => false
  | _ :: rest => decide (rest = [[]]) || chunkHFE rest

/-- The own enumerable property keys of a decoded value, as a generic
(non-format-aware) observer would enumerate them. -/
def Json.ownKeys : Json → List (List Char)
  | .obj kvs => kvs.map Prod.fst
  | .arr xs => mapIdxAux (fun i _ => natToChars i) 0 xs
  | _ => []

/-- A sample tracked-state for witnesses: one descriptor recorded under
identity `0`, with a tab unit, CRLF endings and a final newline. -/
def sampleMeta : Metadata :=
  { indentString := some ['\t'], useCRLF := true, hasFinalEol := true, filepath := none }

/-- A sample association table holding `sampleMeta` at identity `0`. -/
def sampleState : MJState := { refs := [(0, sampleMeta)], nextId := 1 }

/-- Number of LF characters in a text. -/
def countLF : List Char → Nat
  | [] => 0
  | c :: rest => (if c = '\n' then 1 else 0) + countLF rest

/-- A text whose third indented line dedents by more than its own leading
run (from six spaces back to two), so the absolute difference (4) exceeds
the current leading run's length (2). -/
def dedentSample : List Char := "\x7b\n  \"a\": [1,\n      2],\n  \"b\": 3\n\x7d".data

/-- Scanner state just before a deeper line: previous leading run of two
spaces, with its candidate already recorded once. -/
def dedentState : ScanState :=
  { indents := [("  ".data, 1)], lfCount := 0, crCount := 0, hasFinalEol := false,
    previousIndent := "  ".data, key := "  ".data }

/-- A line indented by four spaces. -/
def dedentLine : List Char := "    x".data

/-- A pure-LF text with internally consistent two-space indentation and a
trailing newline whose only irregularity is a missing space after the
colon. -/
def colonSample : List Char := "\x7b\n  \"a\":1\n\x7d\n".data

/-- A text with consistent two-space indentation whose line endings mix
CRLF (twice) and LF (once), so CRLF is the strict majority. -/
def mixedSample : List Char := "\x7b\r\n  \"a\": 1,\r\n  \"b\": 2\n\x7d".data

/-- An LF-normalized body in the generic encoder's own shape. -/
def roundBody : List Char := "\x7b\n  \"a\": 1\n\x7d".data

/-- The value `roundBody` decodes to. -/
def roundVal : Json := Json.obj [(['a'], Json.num 1)]

/-! ## C3 -/

/-- C3: `fromFile` is claimed to store the resolved absolute form of the
path in the descriptor; the code (line 40) stores the path exactly as
given.  Evaluated at the failing input of the repository's own test
`Stores resolved path to file`: after `fromFile` on the text `"{}"` with
path `./package.json`, the descriptor holds the relative path verbatim,
not `path.resolve('./package.json')` (which is absolute and cannot start
with `.`). -/
theorem fromFile_stores_path_as_given :
    (MagicJSON.fromFile mjInit ['\x7b', '\x7d'] "./package.json".data).2.refs =
      [(0, { indentString := none, useCRLF := false, hasFinalEol := false,
             filepath := some "./package.json".data })] ∧
    "./package.json".data.head? = some '.' := by
  exact ⟨rfl, rfl⟩

/-! ## C4 -/

/-- C4, counterexample: `write` with no path available fails with a
`TypeError` whose message is the interpolated sentence of line 55, which
is not the message `no location available` stated by the claim. -/
theorem write_message_counterexample :
    (MagicJSON.write mjInit (Json.obj []) none none).1 =
      .error (.typeError writeErrMsg) ∧
    writeErrMsg ≠ "no location available".data := by
  exact ⟨rfl, by decide⟩

/-- C4 as amended: when no filepath argument is given and none is
recorded for the value, `write` fails before any I/O is attempted (no
(path, text) pair is ever produced and the table is untouched) with a
`TypeError` carrying the message
`value is not a MagicJSON object and filepath argument was not given`. -/
theorem write_no_location_fails_before_io (st : MJState) (v : Json) (ref : Option Nat)
    (h : (lookupMeta st ref).bind Metadata.filepath = none) :
    MagicJSON.write st v ref none = (.error (.typeError writeErrMsg), st) := by
  unfold MagicJSON.write
  simp only [h]

/-- Witness for the amended C4 at a concrete untracked value. -/
theorem write_no_location_fails_before_io_witness :
    MagicJSON.write mjInit (Json.obj []) none none =
      (.error (.typeError writeErrMsg), mjInit) :=
  write_no_location_fails_before_io mjInit (Json.obj []) none rfl

/-! ## C5 -/

/-- C5: for a tracked value and an explicit `space`, `stringify` encodes
with that `space` (the detected `indentString` is not consulted), while
the detected CRLF and final-newline flags are still replayed unchanged;
consequently any two tracked descriptors agreeing on the two line-ending
flags produce identical output under an explicit `space`. -/
theorem stringify_space_override (st : MJState) (v : Json) (ref : Option Nat)
    (m : Metadata) (rep : Option Replacer) (sp : SpaceArg)
    (h : lookupMeta st ref = some m) :
    MagicJSON.stringify st v ref rep (some sp) =
      applyEol (jsonStringify v rep (some sp)) m.useCRLF m.hasFinalEol ∧
    (∀ (st2 : MJState) (ref2 : Option Nat) (m2 : Metadata),
      lookupMeta st2 ref2 = some m2 → m2.useCRLF = m.useCRLF →
      m2.hasFinalEol = m.hasFinalEol →
      MagicJSON.stringify st2 v ref2 rep (some sp) =
        MagicJSON.stringify st v ref rep (some sp)) := by
  constructor
  · simp [MagicJSON.stringify, h, applyEol]
  · intro st2 ref2 m2 h2 hcr hfe
    simp [MagicJSON.stringify, h, h2, hcr, hfe]

/-- Witness for C5 at a concrete tracked descriptor and space `2`. -/
theorem stringify_space_override_witness :
    MagicJSON.stringify sampleState (Json.obj []) (some 0) none (some (.num 2)) =
      applyEol (jsonStringify (Json.obj []) none (some (.num 2)))
        sampleMeta.useCRLF sampleMeta.hasFinalEol :=
  (stringify_space_override sampleState (Json.obj []) (some 0) sampleMeta none
    (.num 2) rfl).1

/-! ## C6 -/

/-- C6: on a value with no recorded descriptor, `stringify` returns
exactly the generic encoder's output for the same arguments — no
indentation forced, no newline appended, no CRLF substitution. -/
theorem stringify_untracked_generic (st : MJState) (v : Json) (ref : Option Nat)
    (rep : Option Replacer) (sp : Option SpaceArg)
    (h : lookupMeta st ref = none) :
    MagicJSON.stringify st v ref rep sp = jsonStringify v rep sp := by
  cases sp <;> simp [MagicJSON.stringify, h]

/-- Witness for C6 at a concrete untracked value. -/
theorem stringify_untracked_generic_witness :
    MagicJSON.stringify mjInit (Json.obj []) none none none =
      jsonStringify (Json.obj []) none none :=
  stringify_untracked_generic mjInit (Json.obj []) none none none rfl

/-! ## C8 -/

/-- C8: when the decoder rejects the text, `parse` returns that very
failure and the association table is exactly as before — no formatting
analysis happens and no partial association is recorded. -/
theorem parse_failure_propagates (st : MJState) (text : List Char)
    (reviver : Option Reviver) (e : SyntaxErr)
    (h : jsonParse text reviver = .error e) :
    MagicJSON.parse st text reviver = (.error e, st) := by
  unfold MagicJSON.parse
  rw [h]

/-- Witness for C8 at the malformed text `x`. -/
theorem parse_failure_propagates_witness :
    MagicJSON.parse mjInit ['x'] none =
      (.error ⟨('U' :: "nexpected token".data)⟩, mjInit) :=
  parse_failure_propagates mjInit ['x'] none ⟨('U' :: "nexpected token".data)⟩ rfl

/-! ## C9 -/

/-- C9: tracking is non-intrusive.  `parse` hands back exactly the value
the decoder produced — associating the descriptor (kept in the side
table keyed by identity) adds no field to it — so a tracked value is
indistinguishable from an untracked structurally-equal value under key
enumeration and under re-serialization by the generic encoder. -/
theorem parse_association_nonintrusive (st : MJState) (text : List Char)
    (reviver : Option Reviver) (v : Json)
    (h : jsonParse text reviver = .ok v) :
    (MagicJSON.parse st text reviver).1 =
      .ok { value := v, ref := if v.isObjectLike then some st.nextId else none } ∧
    (∀ u : Json, u = v →
      Json.ownKeys u = Json.ownKeys v ∧
      ∀ (rep : Option Replacer) (sp : Option SpaceArg),
        jsonStringify u rep sp = jsonStringify v rep sp) := by
  refine ⟨?_, fun u hu => ⟨by rw [hu], fun rep sp => by rw [hu]⟩⟩
  unfold MagicJSON.parse
  rw [h]
  cases hobj : v.isObjectLike <;> simp [hobj]

/-- Witness for C9 at the text `[1]`. -/
theorem parse_association_nonintrusive_witness :
    (MagicJSON.parse mjInit ['[', '1', ']'] none).1 =
      .ok { value := Json.arr [Json.num 1],
            ref := if (Json.arr [Json.num 1]).isObjectLike then some mjInit.nextId
                   else none } ∧
    (∀ u : Json, u = Json.arr [Json.num 1] →
      Json.ownKeys u = Json.ownKeys (Json.arr [Json.num 1]) ∧
      ∀ (rep : Option Replacer) (sp : Option SpaceArg),
        jsonStringify u rep sp = jsonStringify (Json.arr [Json.num 1]) rep sp) :=
  parse_association_nonintrusive mjInit ['[', '1', ']'] none (Json.arr [Json.num 1]) rfl

/-! ## C10 -/

/-- C10: `write` with an explicit path on a tracked value emits exactly
(that path, `stringify(value)`) and leaves the association table — in
particular the value's recorded descriptor with its filepath and
formatting fields — exactly as it was. -/
theorem write_explicit_path_frame (st : MJState) (v : Json) (id : Nat)
    (p : List Char) (m : Metadata)
    (h : lookupMeta st (some id) = some m) :
    MagicJSON.write st v (some id) (some p) =
      (.ok (p, MagicJSON.stringify st v (some id) none none), st) ∧
    lookupMeta (MagicJSON.write st v (some id) (some p)).2 (some id) = some m :=
  ⟨rfl, h⟩

/-- Witness for C10 at the sample tracked state. -/
theorem write_explicit_path_frame_witness :
    MagicJSON.write sampleState (Json.obj []) (some 0) (some "out.json".data) =
      (.ok ("out.json".data, MagicJSON.stringify sampleState (Json.obj []) (some 0) none none),
       sampleState) ∧
    lookupMeta (MagicJSON.write sampleState (Json.obj []) (some 0)
      (some "out.json".data)).2 (some 0) = some sampleMeta :=
  write_explicit_path_frame sampleState (Json.obj []) 0 "out.json".data sampleMeta rfl

/-! ## C2 -/

/-- C2, counterexample: scanning `dedentSample`, the candidate recorded
for the line `  "b": 3` is the four-character line prefix `  "b` — which
contains a quote and a letter — rather than the four-space character-class
substring the claim requires (whose count would then have been 2). -/
theorem indent_delta_counterexample :
    (scanText dedentSample).indents =
      [("  ".data, 1), ("    ".data, 1), ("  \"b".data, 1)] ∧
    '"' ∈ "  \"b".data := by
  exact ⟨rfl, by decide⟩

/-- Every character of a leading run equals its first character. -/
theorem leadingRun_chars (line : List Char) (x : Char) (hx : x ∈ leadingRun line)
    (c : Char) (hc : (leadingRun line).head? = some c) : x = c := by
  cases line with
  | nil => simp [leadingRun] at hx
  | cons c0 cs =>
    by_cases hsp : c0 = ' '
    · subst hsp
      have hx2 := List.mem_takeWhile_imp (p := fun y => y = ' ') hx
      have hx3 : x = ' ' := by simpa using hx2
      have hc2 : c = ' ' := by
        have : leadingRun (' ' :: cs) = ' ' :: cs.takeWhile (fun y => y = ' ') := by
          simp [leadingRun, List.takeWhile]
        rw [this] at hc
        simpa using hc.symm
      rw [hx3, hc2]
    · by_cases htab : c0 = '\t'
      · subst htab
        have hx2 := List.mem_takeWhile_imp (p := fun y => y = '\t') hx
        have hx3 : x = '\t' := by simpa using hx2
        have hc2 : c = '\t' := by
          have : leadingRun ('\t' :: cs) = '\t' :: cs.takeWhile (fun y => y = '\t') := by
            simp [leadingRun, List.takeWhile]
          rw [this] at hc
          simpa using hc.symm
        rw [hx3, hc2]
      · have : leadingRun (c0 :: cs) = [] := by
          unfold leadingRun
          split
          · next h => exact absurd (List.head_eq_of_cons_eq h) hsp
          · next h => exact absurd (List.head_eq_of_cons_eq h) htab
          · rfl
        rw [this] at hx
        simp at hx

/-- The leading run is an initial segment of the line. -/
theorem leadingRun_split (line : List Char) : ∃ rest, line = leadingRun line ++ rest := by
  cases line with
  | nil => exact ⟨[], rfl⟩
  | cons c0 cs =>
    by_cases hsp : c0 = ' '
    · subst hsp
      exact ⟨(' ' :: cs).dropWhile (fun y => y = ' '),
        (List.takeWhile_append_dropWhile (p := fun y => y = ' ') (l := ' ' :: cs)).symm⟩
    · by_cases htab : c0 = '\t'
      · subst htab
        exact ⟨('\t' :: cs).dropWhile (fun y => y = '\t'),
          (List.takeWhile_append_dropWhile (p := fun y => y = '\t') (l := '\t' :: cs)).symm⟩
      · refine ⟨c0 :: cs, ?_⟩
        have : leadingRun (c0 :: cs) = [] := by
          unfold leadingRun
          split
          · next h => exact absurd (List.head_eq_of_cons_eq h) hsp
          · next h => exact absurd (List.head_eq_of_cons_eq h) htab
          · rfl
        rw [this]
        rfl

/-- C2 as amended: on a line whose leading run has the same character
type as the previous one but a different length, the recorded candidate
is the prefix of the *line* whose length is the absolute difference of
the two leading-run lengths; whenever that difference does not exceed the
current leading run's length this is precisely the character-class
substring of that length (the difference repetitions of the class
character), but on a steeper dedent the candidate spills into
non-whitespace characters of the line. -/
theorem indent_delta_amended (st : ScanState) (line : List Char) (c : Char)
    (h1 : (leadingRun line).head? = some c)
    (h2 : (leadingRun line).head? = st.previousIndent.head?)
    (h3 : leadingRun line ≠ st.previousIndent) :
    (processLine st line).key =
      line.take (Int.natAbs (((leadingRun line).length : Int) - (st.previousIndent.length : Int))) ∧
    (processLine st line).indents = bump st.indents (processLine st line).key ∧
    (Int.natAbs (((leadingRun line).length : Int) - (st.previousIndent.length : Int)) ≤
        (leadingRun line).length →
      (processLine st line).key =
        List.replicate
          (Int.natAbs (((leadingRun line).length : Int) - (st.previousIndent.length : Int))) c) := by
  have hne : ¬ (leadingRun line).isEmpty := by
    cases hlr : leadingRun line with
    | nil => rw [hlr] at h1; simp at h1
    | cons a b => simp
  have hlinene : ¬ line.isEmpty := by
    cases line with
    | nil => simp [leadingRun] at hne
    | cons a b => simp
  have hkey : (processLine st line).key =
      line.take (Int.natAbs (((leadingRun line).length : Int) - (st.previousIndent.length : Int))) ∧
      (processLine st line).indents = bump st.indents (processLine st line).key := by
    unfold processLine
    simp only [hlinene, hne, if_false, Bool.false_eq_true]
    rw [if_neg h3, if_pos h2]
    exact ⟨rfl, rfl⟩
  refine ⟨hkey.1, hkey.2, fun hle => ?_⟩
  rw [hkey.1]
  obtain ⟨rest, hrest⟩ := leadingRun_split line
  set L := leadingRun line with hL
  set d := Int.natAbs ((L.length : Int) - (st.previousIndent.length : Int)) with hd
  rw [hrest, List.take_append_of_le_length hle]
  have hall : ∀ b ∈ L.take d, b = c :=
    fun b hb => leadingRun_chars line b (hL ▸ List.mem_of_mem_take hb) c h1
  have hlen : (L.take d).length = d := by
    rw [List.length_take]
    exact Nat.min_eq_left hle
  rw [List.eq_replicate_of_mem hall, hlen]

/-- Witness for the amended C2: going from a two-space to a four-space
leading run records the two-space class substring as the candidate. -/
theorem indent_delta_amended_witness :
    (processLine dedentState dedentLine).key = List.replicate 2 ' ' ∧
    (processLine dedentState dedentLine).indents =
      bump dedentState.indents (processLine dedentState dedentLine).key := by
  constructor
  · have h := (indent_delta_amended dedentState dedentLine ' ' (by decide) (by decide)
      (by decide)).2.2 (by decide)
    rw [h]
    decide
  · exact (indent_delta_amended dedentState dedentLine ' ' (by decide) (by decide)
      (by decide)).2.1

/-! ## C7: line-ending counting -/

/-- Indentation bookkeeping never touches the line-ending counters or the
final-EOL flag. -/
theorem processLine_counters (st : ScanState) (line : List Char) :
    (processLine st line).crCount = st.crCount ∧
    (processLine st line).lfCount = st.lfCount ∧
    (processLine st line).hasFinalEol = st.hasFinalEol := by
  unfold processLine
  dsimp only
  split
  · exact ⟨rfl, rfl, rfl⟩
  · split
    · exact ⟨rfl, rfl, rfl⟩
    · split
      · exact ⟨rfl, rfl, rfl⟩
      · split
        · exact ⟨rfl, rfl, rfl⟩
        · exact ⟨rfl, rfl, rfl⟩

/-- The scan accumulates exactly the chunk-wise boundary counts, and sets
`hasFinalEol` exactly when the chunk list signals it. -/
theorem scanChunks_counts : ∀ (cs : List (List Char)) (st : ScanState),
    (scanChunks st cs).crCount = st.crCount + chunkCR cs ∧
    (scanChunks st cs).lfCount = st.lfCount + chunkLF cs ∧
    (scanChunks st cs).hasFinalEol = (st.hasFinalEol || chunkHFE cs)
  | [], st => by
    simp [scanChunks, chunkCR, chunkLF, chunkHFE]
  | [line], st => by
    simp [scanChunks, chunkCR, chunkLF, chunkHFE, processLine_counters st line]
  | chunk :: next :: rest, st => by
    have ih1 := fun s => (scanChunks_counts (next :: rest) s).1
    have ih2 := fun s => (scanChunks_counts (next :: rest) s).2.1
    have ih3 := fun s => (scanChunks_counts (next :: rest) s).2.2
    simp only [scanChunks, chunkCR, chunkLF, chunkHFE]
    by_cases hcr : chunk.getLast? = some '\r' <;>
      by_cases hfe : next :: rest = [[]] <;>
        simp [scanChunks, chunkCR, chunkLF, chunkHFE, hcr, hfe, ih1, ih2, ih3,
          processLine_counters, Nat.add_assoc, Nat.add_comm, Nat.add_left_comm]

/-- `splitOnLF` of a nonempty text is never nil. -/
theorem splitOnLF_ne_nil (t : List Char) : splitOnLF t ≠ [] := by
  cases t with
  | nil => simp [splitOnLF]
  | cons c rest =>
    unfold splitOnLF
    by_cases h : c = '\n'
    · simp [h]
    · simp only [h, if_false]
      cases splitOnLF rest <;> simp

/-- Splitting after a leading LF prepends an empty chunk. -/
theorem splitOnLF_cons_lf (rest : List Char) :
    splitOnLF ('\n' :: rest) = [] :: splitOnLF rest := by
  simp [splitOnLF]

/-- Splitting after a leading non-LF character prepends it to the first
chunk. -/
theorem splitOnLF_cons_ne (c : Char) (hc : ¬ c = '\n') (rest : List Char) :
    ∃ h ts, splitOnLF rest = h :: ts ∧ splitOnLF (c :: rest) = (c :: h) :: ts := by
  cases hs : splitOnLF rest with
  | nil => exact absurd hs (splitOnLF_ne_nil rest)
  | cons h ts =>
    refine ⟨h, ts, rfl, ?_⟩
    unfold splitOnLF
    rw [if_neg hc, hs]

/-- A text with a single chunk does not start with LF. -/
theorem splitOnLF_single_head (rest : List Char) (h : List Char)
    (hs : splitOnLF rest = [h]) : rest.head? ≠ some '\n' := by
  cases rest with
  | nil => simp
  | cons c2 r2 =>
    by_cases hc2 : c2 = '\n'
    · subst hc2
      rw [splitOnLF_cons_lf] at hs
      have h2 : splitOnLF r2 = [] := by
        injection hs
      exact absurd h2 (splitOnLF_ne_nil r2)
    · simp [hc2]

/-- A text whose first chunk is empty (with more to come) starts with LF. -/
theorem splitOnLF_nil_head (rest : List Char) (ts : List (List Char))
    (hts : ts ≠ []) (hs : splitOnLF rest = [] :: ts) : rest.head? = some '\n' := by
  cases rest with
  | nil =>
    simp [splitOnLF] at hs
    exact absurd hs hts
  | cons c2 r2 =>
    by_cases hc2 : c2 = '\n'
    · simp [hc2]
    · obtain ⟨h2, ts2, _, hsc⟩ := splitOnLF_cons_ne c2 hc2 r2
      rw [hsc] at hs
      simp at hs

/-- A text whose first chunk starts with `a` starts with `a`, and `a` is
not an LF. -/
theorem splitOnLF_cons_head (rest : List Char) (a : Char) (h : List Char)
    (ts : List (List Char)) (hs : splitOnLF rest = (a :: h) :: ts) :
    rest.head? = some a ∧ a ≠ '\n' := by
  cases rest with
  | nil => simp [splitOnLF] at hs
  | cons c2 r2 =>
    by_cases hc2 : c2 = '\n'
    · subst hc2
      rw [splitOnLF_cons_lf] at hs
      simp at hs
    · obtain ⟨h2, ts2, _, hsc⟩ := splitOnLF_cons_ne c2 hc2 r2
      rw [hsc] at hs
      simp at hs
      refine ⟨by simp [hs.1.1], ?_⟩
      rw [← hs.1.1]
      exact hc2

/-- Character-level boundary classification agrees with the chunk-level
one; the correction term accounts for a CR handed in from the context
just before a leading LF. -/
theorem eolAux_chunks : ∀ (t : List Char) (prev : Option Char),
    crlfAux prev t = chunkCR (splitOnLF t) +
      (if prev = some '\r' ∧ t.head? = some '\n' then 1 else 0) ∧
    bareAux prev t + (if prev = some '\r' ∧ t.head? = some '\n' then 1 else 0) =
      chunkLF (splitOnLF t)
  | [], prev => by simp [crlfAux, bareAux, splitOnLF, chunkCR, chunkLF]
  | c :: rest, prev => by
    by_cases hc : c = '\n'
    · subst hc
      have ih := eolAux_chunks rest (some '\n')
      rw [splitOnLF_cons_lf]
      cases hcs : splitOnLF rest with
      | nil => exact absurd hcs (splitOnLF_ne_nil rest)
      | cons h ts =>
        rw [hcs] at ih
        simp at ih
        by_cases hp : prev = some '\r' <;>
          · simp [crlfAux, bareAux, chunkCR, chunkLF, hp, ih.1, ih.2]
            try omega
    · obtain ⟨h, ts, hs, hsc⟩ := splitOnLF_cons_ne c hc rest
      have ih := eolAux_chunks rest (some c)
      rw [hs] at ih
      rw [hsc]
      cases ts with
      | nil =>
        have hrh := splitOnLF_single_head rest h hs
        constructor <;>
          · simp [crlfAux, bareAux, chunkCR, chunkLF, hrh] at ih
            simp [crlfAux, bareAux, chunkCR, chunkLF, hc]
            omega
      | cons t1 ts2 =>
        cases h with
        | nil =>
          have hrh := splitOnLF_nil_head rest (t1 :: ts2) (by simp) hs
          by_cases hcr : c = '\r' <;>
            · simp [crlfAux, bareAux, chunkCR, chunkLF, hcr, hrh] at ih
              simp [crlfAux, bareAux, chunkCR, chunkLF, hc, hcr]
              omega
        | cons a h2 =>
          obtain ⟨hrh, ha⟩ := splitOnLF_cons_head rest a h2 (t1 :: ts2) hs
          simp [crlfAux, bareAux, chunkCR, chunkLF, hrh, ha] at ih
          simp [crlfAux, bareAux, chunkCR, chunkLF, hc, List.getLast?_cons_cons]
          omega

/-- Splitting a nonempty text never yields exactly one empty chunk. -/
theorem splitOnLF_cons_ne_single (c2 : Char) (rest : List Char) :
    splitOnLF (c2 :: rest) ≠ [[]] := by
  by_cases hc2 : c2 = '\n'
  · subst hc2
    rw [splitOnLF_cons_lf]
    intro h
    have h2 : splitOnLF rest = [] := by
      injection h
    exact splitOnLF_ne_nil rest h2
  · obtain ⟨h, ts, _, hsc⟩ := splitOnLF_cons_ne c2 hc2 rest
    rw [hsc]
    simp

/-- The chunk-level final-EOL signal holds exactly when the text ends in
an LF. -/
theorem chunkHFE_splitOnLF : ∀ t : List Char,
    chunkHFE (splitOnLF t) = decide (t.getLast? = some '\n')
  | [] => by simp [splitOnLF, chunkHFE]
  | [c] => by
    by_cases hc : c = '\n'
    · subst hc
      simp [splitOnLF, chunkHFE]
    · simp [splitOnLF, hc, chunkHFE]
  | c :: c2 :: rest => by
    have ih := chunkHFE_splitOnLF (c2 :: rest)
    by_cases hc : c = '\n'
    · subst hc
      rw [splitOnLF_cons_lf]
      cases hcs : splitOnLF (c2 :: rest) with
      | nil => exact absurd hcs (splitOnLF_ne_nil _)
      | cons h ts =>
        rw [hcs] at ih
        have hne : h :: ts ≠ [[]] := hcs ▸ splitOnLF_cons_ne_single c2 rest
        simp [chunkHFE, hne] at ih ⊢
        exact ih
    · obtain ⟨h, ts, hs, hsc⟩ := splitOnLF_cons_ne c hc (c2 :: rest)
      rw [hsc]
      rw [hs] at ih
      cases ts with
      | nil =>
        simp [chunkHFE] at ih ⊢
        exact ih
      | cons t1 ts2 =>
        simp [chunkHFE] at ih ⊢
        exact ih

/-- The detection loop's counters and final-EOL flag in terms of the
character-level classification. -/
theorem scanText_counts (t : List Char) :
    (scanText t).crCount = crlfCount t ∧
    (scanText t).lfCount = bareLFCount t ∧
    (scanText t).hasFinalEol = decide (t.getLast? = some '\n') := by
  obtain ⟨h1, h2, h3⟩ := scanChunks_counts (splitOnLF t) initScan
  obtain ⟨b1, b2⟩ := eolAux_chunks t none
  have hh := chunkHFE_splitOnLF t
  simp at b1 b2
  unfold scanText
  rw [h1, h2, h3]
  unfold crlfCount bareLFCount
  simp [initScan, b1, b2, hh]

/-- C7: every line boundary is classified CRLF exactly when the linefeed
is immediately preceded by a carriage return and bare LF otherwise (the
scanner's two counters equal those classification counts for every input
text), and the recorded `useCRLF` flag is the strict comparison
`crlfCount > bareLFCount` — so equal counts give `useCRLF = false`. -/
theorem detect_line_ending_classification (text : List Char) :
    (scanText text).crCount = crlfCount text ∧
    (scanText text).lfCount = bareLFCount text ∧
    (detect text).useCRLF = decide (crlfCount text > bareLFCount text) := by
  obtain ⟨h1, h2, _⟩ := scanText_counts text
  exact ⟨h1, h2, by simp [detect, h1, h2]⟩

/-! ## C1: round trip -/

/-- A text without carriage returns has no CRLF boundaries. -/
theorem crlfAux_eq_zero : ∀ (t : List Char) (prev : Option Char),
    '\r' ∉ t → prev ≠ some '\r' → crlfAux prev t = 0
  | [], _, _, _ => rfl
  | c :: rest, prev, hmem, hprev => by
    have hc : c ≠ '\r' := fun h => hmem (h ▸ List.mem_cons_self c rest)
    have ih := crlfAux_eq_zero rest (some c)
      (fun h => hmem (List.mem_cons_of_mem c h)) (by simp [hc])
    simp [crlfAux, hprev, ih]

/-- One step of `replaceAll` as a block append. -/
theorem replaceAllLF_block (c : Char) (rest : List Char) :
    replaceAllLF (c :: rest) =
      (if c = '\n' then ['\r', '\n'] else [c]) ++ replaceAllLF rest := by
  by_cases hc : c = '\n' <;> simp [replaceAllLF, hc]

/-- CRLF rewriting preserves nonemptiness. -/
theorem replaceAllLF_ne_nil (b : List Char) (hb : b ≠ []) : replaceAllLF b ≠ [] := by
  cases b with
  | nil => exact absurd rfl hb
  | cons c rest =>
    rw [replaceAllLF_block]
    by_cases hc : c = '\n' <;> simp [hc]

/-- After CRLF rewriting of a CR-free body, every boundary is CRLF: the
CRLF count is the body's LF count and the bare-LF count is zero. -/
theorem replaceAllLF_counts : ∀ (b : List Char) (prev : Option Char),
    '\r' ∉ b → prev ≠ some '\r' →
    crlfAux prev (replaceAllLF b) = countLF b ∧
    bareAux prev (replaceAllLF b) = 0
  | [], _, _, _ => ⟨rfl, rfl⟩
  | c :: rest, prev, hmem, hprev => by
    have hc : c ≠ '\r' := fun h => hmem (h ▸ List.mem_cons_self c rest)
    have hmem2 : '\r' ∉ rest := fun h => hmem (List.mem_cons_of_mem c h)
    by_cases hlf : c = '\n'
    · subst hlf
      have ih := replaceAllLF_counts rest (some '\n') hmem2 (by simp)
      simp [replaceAllLF, crlfAux, bareAux, hprev, countLF, ih.1, ih.2]
    · have ih := replaceAllLF_counts rest (some c) hmem2 (by simp [hc])
      simp [replaceAllLF, crlfAux, bareAux, hlf, hprev, countLF, ih.1, ih.2]

/-- CRLF rewriting ends in LF exactly when the body does. -/
theorem replaceAllLF_getLast : ∀ b : List Char,
    ((replaceAllLF b).getLast? = some '\n') = (b.getLast? = some '\n')
  | [] => by simp [replaceAllLF]
  | [c] => by
    by_cases hc : c = '\n' <;> simp [replaceAllLF, hc]
  | c :: c2 :: rest => by
    have ih := replaceAllLF_getLast (c2 :: rest)
    rw [replaceAllLF_block]
    rw [List.getLast?_append_of_ne_nil _ (replaceAllLF_ne_nil (c2 :: rest) (by simp))]
    rw [List.getLast?_cons_cons]
    exact ih

/-- CRLF rewriting is the identity on an LF-free text. -/
theorem replaceAllLF_no_lf : ∀ b : List Char, '\n' ∉ b → replaceAllLF b = b
  | [], _ => rfl
  | c :: rest, hmem => by
    have hc : c ≠ '\n' := fun h => hmem (h ▸ List.mem_cons_self c rest)
    have ih := replaceAllLF_no_lf rest (fun h => hmem (List.mem_cons_of_mem c h))
    simp [replaceAllLF, hc, ih]

/-- A text with LF count zero contains no LF. -/
theorem countLF_zero_not_mem : ∀ b : List Char, countLF b = 0 → '\n' ∉ b
  | [], _ => by simp
  | c :: rest, h => by
    by_cases hc : c = '\n'
    · simp [countLF, hc] at h
    · simp [countLF, hc] at h
      intro hmem
      rcases List.mem_cons.mp hmem with h1 | h2
      · exact hc h1.symm
      · exact countLF_zero_not_mem rest h h2

/-- LF counting is additive over append. -/
theorem countLF_append : ∀ a b : List Char, countLF (a ++ b) = countLF a + countLF b
  | [], b => by simp [countLF]
  | c :: rest, b => by
    simp [countLF, countLF_append rest b]
    omega

/-- The crux of the amended round trip: rendering a CR-free body (not
itself ending in LF) in either uniform line-ending style and then
replaying the flags the detector recovers from the rendered text
reproduces that text exactly. -/
theorem applyEol_detect_replay (body : List Char) (crlf eol : Bool)
    (hCR : '\r' ∉ body) (hlast : body.getLast? ≠ some '\n') :
    applyEol body (detect (applyEol body crlf eol)).useCRLF
      (detect (applyEol body crlf eol)).hasFinalEol = applyEol body crlf eol := by
  have hbCR : '\r' ∉ (if eol then body ++ ['\n'] else body) := by
    cases eol <;> simp [List.mem_append, hCR]
  have hdet : (detect (applyEol body crlf eol)).hasFinalEol =
      (scanText (applyEol body crlf eol)).hasFinalEol := by
    simp [detect]
  have h3 := (scanText_counts (applyEol body crlf eol)).2.2
  have hflagEol : (detect (applyEol body crlf eol)).hasFinalEol = eol := by
    rw [hdet, h3]
    cases heol : eol
    · have hne : (applyEol body crlf false).getLast? ≠ some '\n' := by
        cases hcrlf2 : crlf
        · simpa [applyEol] using hlast
        · show (replaceAllLF body).getLast? ≠ some '\n'
          intro h
          exact hlast (cast (replaceAllLF_getLast body) h)
      simp [hne]
    · have hyes : (applyEol body crlf true).getLast? = some '\n' := by
        cases hcrlf2 : crlf
        · show (body ++ ['\n']).getLast? = some '\n'
          simp
        · show (replaceAllLF (body ++ ['\n'])).getLast? = some '\n'
          exact cast (replaceAllLF_getLast (body ++ ['\n'])).symm (by simp)
      simp [hyes]
  cases hcrlf : crlf
  · -- LF-only text: no CR anywhere, so useCRLF comes out false.
    have ht : applyEol body false eol = (if eol then body ++ ['\n'] else body) := by
      simp [applyEol]
    have hzero : crlfCount (applyEol body false eol) = 0 := by
      rw [ht]
      exact crlfAux_eq_zero _ none hbCR (by simp)
    have h1 := (scanText_counts (applyEol body false eol)).1
    have hflagCR : (detect (applyEol body false eol)).useCRLF = false := by
      simp [detect, h1, hzero]
    rw [hcrlf] at hflagEol
    rw [hflagCR, hflagEol, ht]
  · -- CRLF text: every LF of the rendered text is preceded by CR.
    have ht : applyEol body true eol = replaceAllLF (if eol then body ++ ['\n'] else body) := by
      simp [applyEol]
    have hcounts := replaceAllLF_counts (if eol then body ++ ['\n'] else body) none hbCR
      (by simp)
    have h1 := (scanText_counts (applyEol body true eol)).1
    have h2 := (scanText_counts (applyEol body true eol)).2.1
    rw [hcrlf] at hflagEol
    have hc1 : crlfCount (applyEol body true eol) =
        countLF (if eol then body ++ ['\n'] else body) := by
      rw [ht]
      exact hcounts.1
    have hc2 : bareLFCount (applyEol body true eol) = 0 := by
      rw [ht]
      exact hcounts.2
    have hflagCR : (detect (applyEol body true eol)).useCRLF =
        decide (countLF (if eol then body ++ ['\n'] else body) > 0) := by
      simp [detect, h1, h2, hc1, hc2]
    by_cases h0 : countLF (if eol then body ++ ['\n'] else body) = 0
    · -- No line boundary at all: all flags false, and CRLF rewriting is the
      -- identity on an LF-free body.
      have heol : eol = false := by
        cases heol2 : eol
        · rfl
        · rw [heol2] at h0
          simp [countLF_append, countLF] at h0
      have hnolf : '\n' ∉ (if eol then body ++ ['\n'] else body) :=
        countLF_zero_not_mem _ h0
      rw [heol] at hnolf
      simp only [if_neg Bool.false_ne_true] at hnolf
      rw [hflagCR, hflagEol, h0, heol]
      simp [applyEol]
      rw [replaceAllLF_no_lf body hnolf]
    · rw [hflagCR, hflagEol]
      have hposd : decide (countLF (if eol then body ++ ['\n'] else body) > 0) = true := by
        simp
        omega
      rw [hposd]

/-- `stringify` with no space override on a tracked value: encode with
the recorded unit, then replay the recorded line-ending flags. -/
theorem stringify_tracked_default (st : MJState) (v : Json) (ref : Option Nat)
    (m : Metadata) (rep : Option Replacer) (h : lookupMeta st ref = some m) :
    MagicJSON.stringify st v ref rep none =
      applyEol (jsonStringify v rep (m.indentString.map SpaceArg.str))
        m.useCRLF m.hasFinalEol := by
  simp [MagicJSON.stringify, h, applyEol]

/-- `parse` on a decodable object/array records the detector's descriptor
under a fresh identity. -/
theorem parse_tracked (st : MJState) (text : List Char) (rev : Option Reviver)
    (v : Json) (hp : jsonParse text rev = .ok v) (ho : v.isObjectLike = true) :
    MagicJSON.parse st text rev =
      (.ok { value := v, ref := some st.nextId },
       { refs := st.refs ++ [(st.nextId, detect text)], nextId := st.nextId + 1 }) := by
  unfold MagicJSON.parse
  rw [hp]
  dsimp only
  rw [if_pos ho]

/-- C1 as amended: `stringify(parse(t))` with no mutation in between
returns exactly `t` for every text `t` that decodes to an object or
array, uses one uniform line-ending style (rendered from a CR-free
LF-normalized body that does not itself end in a line ending), and whose
body is exactly the generic encoder's output for the decoded value with
the detected indentation unit. -/
theorem roundTrip_amended (body : List Char) (crlf eol : Bool) (v : Json)
    (hCR : '\r' ∉ body)
    (hlast : body.getLast? ≠ some '\n')
    (hparse : jsonParse (applyEol body crlf eol) none = .ok v)
    (htrack : v.isObjectLike = true)
    (hbody : jsonStringify v none
      ((detect (applyEol body crlf eol)).indentString.map SpaceArg.str) = body) :
    MagicJSON.roundTrip (applyEol body crlf eol) = some (applyEol body crlf eol) := by
  unfold MagicJSON.roundTrip
  rw [parse_tracked mjInit (applyEol body crlf eol) none v hparse htrack]
  dsimp only
  have hlook : lookupMeta
      { refs := mjInit.refs ++ [(mjInit.nextId, detect (applyEol body crlf eol))],
        nextId := mjInit.nextId + 1 } (some mjInit.nextId) =
      some (detect (applyEol body crlf eol)) := by
    simp [mjInit, lookupMeta, lookupRefs]
  rw [stringify_tracked_default _ v _ _ none hlook]
  rw [hbody]
  exact congrArg some (applyEol_detect_replay body crlf eol hCR hlast)

/-- C1, counterexample: two texts satisfying the claim's hypotheses that
do not round-trip.  `colonSample` is pure LF with internally consistent
two-space indentation and a trailing newline, but writes `\"a\":1` without
a space after the colon, which the generic encoder normalizes away;
`mixedSample` has consistent indentation and a strict CRLF majority, but
its single bare LF is rewritten to CRLF on replay. -/
theorem roundTrip_counterexample :
    MagicJSON.roundTrip colonSample ≠ some colonSample ∧
    MagicJSON.roundTrip mixedSample ≠ some mixedSample := by
  exact ⟨by decide, by decide⟩

/-- Witness for the amended C1 at a two-space, LF, trailing-newline text
in canonical encoder shape. -/
theorem roundTrip_amended_witness :
    MagicJSON.roundTrip (applyEol roundBody false true) =
      some (applyEol roundBody false true) :=
  roundTrip_amended roundBody false true roundVal (by decide) (by decide) rfl rfl rfl
